import Mathlib

/-!
Verification of the Stern-Brocot exact-rational core of the cbt repository
(src/include/cbt/stern_brocot.hpp) against its natural-language specification.

The C++ class template stern_brocot<T> (T a signed integral type) is embedded
shallowly: the integer type T is modelled by unbounded ℤ (the no-overflow
reading of the template; the absence of overflow checking in the source is
treated separately), throwing constructors and operators are modelled as
Option- or Except-valued functions, and the floating-point quantities consumed
by approximate are abstracted into oracles (see FloatVal below).
-/

namespace CBT

/-- Model of the stern_brocot<T> value: the two private fields num_ and den_. -/
structure SB where
  num : ℤ
  den : ℤ
deriving DecidableEq, Repr

/-- Model of the private member reduce(): divide both fields by their gcd when
it exceeds 1 (std::gcd of signed arguments is the non-negative gcd of the
absolute values), then normalize the sign so the denominator is non-negative.
The two divisions are exact, so the C++ truncating division agrees with ℤ
division here. -/
def reduce (r : SB) : SB :=
  let g : ℤ := (Int.gcd r.num r.den : ℤ)
  let r1 : SB := if 1 < g then ⟨r.num / g, r.den / g⟩ else r
  if r1.den < 0 then ⟨-r1.num, -r1.den⟩ else r1

/-- Model of the constructor stern_brocot(T n, T d): throws (here: none) when
d == 0, otherwise stores the reduced pair. -/
def mk (n d : ℤ) : Option SB :=
  if d = 0 then none else some (reduce ⟨n, d⟩)

/-- Model of operator+. -/
def add (a b : SB) : Option SB :=
  mk (a.num * b.den + b.num * a.den) (a.den * b.den)

/-- Model of operator-. -/
def sub (a b : SB) : Option SB :=
  mk (a.num * b.den - b.num * a.den) (a.den * b.den)

/-- Model of operator*. -/
def mul (a b : SB) : Option SB :=
  mk (a.num * b.num) (a.den * b.den)

/-- Model of operator/: throws (none) when the divisor numerator is zero,
otherwise cross-divides and goes through the reducing constructor. -/
def div (a b : SB) : Option SB :=
  if b.num = 0 then none else mk (a.num * b.den) (a.den * b.num)

/-- Model of mediant(other): componentwise sum, again through the reducing
constructor. -/
def mediant (a b : SB) : Option SB :=
  mk (a.num + b.num) (a.den + b.den)

/-- Model of operator==: cross-multiplication equality, no reduction and no
overflow check (the products are ℤ products here; the wrapped variant is
modelled separately). -/
def sbEq (a b : SB) : Bool :=
  a.num * b.den == b.num * a.den

/-- The reduction invariant of the spec (Invariants A and B): the gcd of
|numerator| and |denominator| is 1 and the denominator is positive. -/
def Red (r : SB) : Prop :=
  Int.gcd r.num r.den = 1 ∧ 0 < r.den

instance (r : SB) : Decidable (Red r) := by
  unfold Red; infer_instance

theorem reduce_red {n d : ℤ} (hd : d ≠ 0) : Red (reduce ⟨n, d⟩) := by
  unfold reduce Red
  simp only []
  set g : ℤ := (Int.gcd n d : ℤ) with hg
  have hgpos : 0 < Int.gcd n d := Int.gcd_pos_of_ne_zero_right n hd
  by_cases h1 : 1 < g
  · have hdvd : g ∣ d := Int.gcd_dvd_right
    have hd' : d / g ≠ 0 := by
      intro h0
      have : d = g * (d / g) := (Int.mul_ediv_cancel' hdvd).symm
      rw [h0, mul_zero] at this
      exact hd this
    have hgcd1 : Int.gcd (n / g) (d / g) = 1 := Int.gcd_div_gcd_div_gcd hgpos
    simp only [if_pos h1]
    by_cases hneg : d / g < 0
    · simp only [if_pos hneg]
      refine ⟨?_, by omega⟩
      rw [Int.neg_gcd, Int.gcd_neg]
      exact hgcd1
    · simp only [if_neg hneg]
      exact ⟨hgcd1, by omega⟩
  · have hg1 : Int.gcd n d = 1 := by
      have : g ≤ 1 := not_lt.mp h1
      have : (Int.gcd n d : ℤ) ≤ 1 := this
      omega
    simp only [if_neg h1]
    by_cases hneg : d < 0
    · simp only [if_pos hneg]
      refine ⟨?_, by omega⟩
      rw [Int.neg_gcd, Int.gcd_neg]
      exact hg1
    · simp only [if_neg hneg]
      exact ⟨hg1, by omega⟩

theorem mk_red {n d : ℤ} {r : SB} (h : mk n d = some r) : Red r := by
  unfold mk at h
  by_cases hd : d = 0
  · simp [hd] at h
  · simp only [if_neg hd, Option.some.injEq] at h
    exact h ▸ reduce_red hd

/-!
The approximate routine. Its floating-point interactions are abstracted:
the source reads the double x only through isfinite, == 0.0, < 0 and the
long double continued-fraction iteration (floor of the current value, the
epsilon and non-finiteness loop exits, and one long double error comparison
in the semiconvergent branch). A FloatVal packages exactly these observations
as oracles; every theorem below holds for arbitrary oracle values subject
only to sign facts that are forced for any IEEE evaluation (stated as
hypotheses where needed).
-/

/-- Abstraction of the double input x of approximate together with the
floating-point decisions taken while processing it: finite is isfinite(x),
isZero is x == 0.0, neg is x < 0, quots i is the integer floor of the long
double cf_value at loop iteration i, brk i tells whether one of the two
in-loop exits (remainder <= epsilon, non-finite next value) fires at the end
of iteration i, and semiCloser is the result of the long double comparison
candidate_error < current_error in the semiconvergent branch. -/
structure FloatVal where
  finite : Bool
  isZero : Bool
  neg : Bool
  quots : ℕ → ℤ
  brk : ℕ → Bool
  semiCloser : Bool

/-- Error kinds of approximate named by the spec (both are thrown as
std::invalid_argument in the source, distinguished by their message). -/
inductive ApproxErr where
  | invalidBound
  | nonFiniteInput
deriving DecidableEq, Repr

/-- The loop state of approximate: prev_num, prev_den, curr_num, curr_den. -/
structure ConvState where
  pn : ℤ
  pd : ℤ
  cn : ℤ
  cd : ℤ
deriving DecidableEq, Repr

/-- Model of the for-loop of approximate (iteration cap 256 in the source is
the initial fuel). At iteration i the long double floor is x.quots i; the
semiconvergent step uses C++ truncating division for t; the two early loop
exits are folded into the oracle x.brk. -/
def approxLoop (x : FloatVal) (N : ℤ) : ℕ → ℕ → ConvState → ConvState
  | 0, _, s => s
  | fuel + 1, i, s =>
    let a := x.quots i
    let nn := a * s.cn + s.pn
    let nd := a * s.cd + s.pd
    if N < nd then
      if s.cd ≠ 0 then
        let t := Int.tdiv (N - s.pd) s.cd
        if 0 < t then
          let can := t * s.cn + s.pn
          let cad := t * s.cd + s.pd
          if 0 < cad ∧ x.semiCloser = true then ⟨s.pn, s.pd, can, cad⟩ else s
        else s
      else s
    else
      let s' : ConvState := ⟨s.cn, s.cd, nn, nd⟩
      if x.brk i then s' else approxLoop x N fuel (i + 1) s'

/-- Model of the post-loop fix-up of approximate: if curr_den == 0 then
curr_den = 1 and curr_num = 0. -/
def approxFix (s : ConvState) : ConvState :=
  if s.cd = 0 then ⟨s.pn, s.pd, 0, 1⟩ else s

/-- Model of the final sign reapplication of approximate: for negative x the
result is rebuilt through the constructor as stern_brocot(-num, den). -/
def approxSign (x : FloatVal) (r : SB) : SB :=
  if x.neg = true then reduce ⟨-r.num, r.den⟩ else r

/-- The value built by approximate after its input checks and zero shortcut:
the convergent loop, the curr_den == 0 fix-up, the reducing constructor
stern_brocot(curr_num, curr_den) (whose throw branch is unreachable because
the fix-up forces a non-zero denominator), and the sign reapplication. -/
def approxResult (x : FloatVal) (N : ℤ) : SB :=
  approxSign x
    (reduce ⟨(approxFix (approxLoop x N 256 0 ⟨0, 1, 1, 0⟩)).cn,
             (approxFix (approxLoop x N 256 0 ⟨0, 1, 1, 0⟩)).cd⟩)

/-- Model of static approximate(double x, T max_den): the two input checks,
the x == 0.0 shortcut (returning stern_brocot(0, 1)), and the main
convergent search. -/
def approximate (x : FloatVal) (N : ℤ) : Except ApproxErr SB :=
  if N ≤ 0 then .error .invalidBound
  else if x.finite = false then .error .nonFiniteInput
  else if x.isZero = true then .ok (reduce ⟨0, 1⟩)
  else .ok (approxResult x N)

instance (ε α : Type) [DecidableEq ε] [DecidableEq α] : DecidableEq (Except ε α) :=
  fun a b =>
    match a, b with
    | .error e, .error f =>
      if h : e = f then isTrue (by rw [h])
      else isFalse (fun hh => h (Except.error.inj hh))
    | .error _, .ok _ => isFalse (fun hh => Except.noConfusion hh)
    | .ok _, .error _ => isFalse (fun hh => Except.noConfusion hh)
    | .ok x, .ok y =>
      if h : x = y then isTrue (by rw [h])
      else isFalse (fun hh => h (Except.ok.inj hh))

/-- A concrete finite input whose quotient oracle is constantly 1 (the
golden-ratio expansion); used by witnesses. -/
def xFin : FloatVal :=
  ⟨true, false, false, fun _ => 1, fun _ => false, false⟩

/-- A concrete non-finite input; used in counterexamples. -/
def xNaN : FloatVal :=
  ⟨false, false, false, fun _ => 0, fun _ => false, false⟩

/-- The denominator bounds maintained by the convergent loop. -/
def DenInv (N : ℤ) (s : ConvState) : Prop :=
  1 ≤ s.cd ∧ s.cd ≤ N ∧ 0 ≤ s.pd ∧ s.pd ≤ N

theorem approxLoop_inv (x : FloatVal) (N : ℤ)
    (hq : ∀ j : ℕ, 1 ≤ j → 1 ≤ x.quots j) :
    ∀ (fuel i : ℕ) (s : ConvState), 1 ≤ i → DenInv N s →
      DenInv N (approxLoop x N fuel i s) := by
  intro fuel
  induction fuel with
  | zero =>
    intro i s _ hs
    simpa only [approxLoop] using hs
  | succ fuel ih =>
    intro i s hi hs
    obtain ⟨h1, h2, h3, h4⟩ := hs
    simp only [approxLoop]
    by_cases hnd : N < x.quots i * s.cd + s.pd
    · rw [if_pos hnd]
      by_cases hcd : s.cd ≠ 0
      · rw [if_pos hcd]
        by_cases htpos : 0 < Int.tdiv (N - s.pd) s.cd
        · rw [if_pos htpos]
          by_cases hcond : 0 < Int.tdiv (N - s.pd) s.cd * s.cd + s.pd ∧
              x.semiCloser = true
          · rw [if_pos hcond]
            refine ⟨hcond.1, ?_, h3, h4⟩
            have hdt := Int.tdiv_add_tmod (N - s.pd) s.cd
            have hmod : 0 ≤ Int.tmod (N - s.pd) s.cd :=
              Int.tmod_nonneg _ (by omega)
            have hle : s.cd * Int.tdiv (N - s.pd) s.cd ≤ N - s.pd := by linarith
            calc Int.tdiv (N - s.pd) s.cd * s.cd + s.pd
                = s.cd * Int.tdiv (N - s.pd) s.cd + s.pd := by ring
              _ ≤ N := by linarith
          · rw [if_neg hcond]; exact ⟨h1, h2, h3, h4⟩
        · rw [if_neg htpos]; exact ⟨h1, h2, h3, h4⟩
      · rw [if_neg hcd]; exact ⟨h1, h2, h3, h4⟩
    · rw [if_neg hnd]
      have ha : 1 ≤ x.quots i := hq i hi
      have hnd1 : 1 ≤ x.quots i * s.cd + s.pd := by nlinarith
      have hs' : DenInv N ⟨s.cn, s.cd, x.quots i * s.cn + s.pn,
          x.quots i * s.cd + s.pd⟩ := by
        refine ⟨?_, ?_, ?_, ?_⟩ <;> dsimp only <;> omega
      by_cases hb : x.brk i = true
      · rw [if_pos hb]; exact hs'
      · rw [if_neg hb]; exact ih (i + 1) _ (by omega) hs'

theorem approxLoop_inv_zero (x : FloatVal) (N : ℤ) (hN : 1 ≤ N)
    (hq : ∀ j : ℕ, 1 ≤ j → 1 ≤ x.quots j) (fuel : ℕ) :
    DenInv N (approxLoop x N (fuel + 1) 0 ⟨0, 1, 1, 0⟩) := by
  simp only [approxLoop]
  have hnd : ¬ N < x.quots 0 * (0:ℤ) + 1 := by omega
  rw [if_neg hnd]
  have hs' : DenInv N ⟨1, 0, x.quots 0 * 1 + 0, x.quots 0 * 0 + 1⟩ := by
    refine ⟨?_, ?_, ?_, ?_⟩ <;> dsimp only <;> omega
  by_cases hb : x.brk 0 = true
  · rw [if_pos hb]; exact hs'
  · rw [if_neg hb]; exact approxLoop_inv x N hq fuel 1 _ (le_refl 1) hs'

theorem reduce_den_le {n d : ℤ} (hd : 0 < d) : (reduce ⟨n, d⟩).den ≤ d := by
  unfold reduce
  set g : ℤ := (Int.gcd n d : ℤ) with hg
  have hg0 : 0 ≤ g := Int.ofNat_nonneg _
  by_cases h1 : 1 < g
  · have hdg : 0 ≤ d / g := Int.ediv_nonneg (le_of_lt hd) hg0
    have hle : d / g ≤ d := Int.ediv_le_self _ (le_of_lt hd)
    simp only [if_pos h1, if_neg (not_lt.mpr hdg)]
    exact hle
  · simp only [if_neg h1, if_neg (not_lt.mpr (le_of_lt hd))]
    exact le_refl d

instance (N : ℤ) (s : ConvState) : Decidable (DenInv N s) := by
  unfold DenInv; infer_instance

theorem approxFix_cd_ne (s : ConvState) : (approxFix s).cd ≠ 0 := by
  unfold approxFix
  by_cases h : s.cd = 0
  · rw [if_pos h]; dsimp only; omega
  · rw [if_neg h]; exact h

theorem approxFix_eq {s : ConvState} (h : s.cd ≠ 0) : approxFix s = s :=
  if_neg h

theorem approxSign_red {x : FloatVal} {r : SB} (h : Red r) :
    Red (approxSign x r) := by
  unfold approxSign
  by_cases hn : x.neg = true
  · rw [if_pos hn]; exact reduce_red (by have := h.2; omega)
  · rw [if_neg hn]; exact h

theorem approxSign_den_le {x : FloatVal} {r : SB} (h : Red r) :
    (approxSign x r).den ≤ r.den := by
  unfold approxSign
  by_cases hn : x.neg = true
  · rw [if_pos hn]; exact reduce_den_le h.2
  · rw [if_neg hn]

theorem approxResult_red (x : FloatVal) (N : ℤ) : Red (approxResult x N) :=
  approxSign_red (reduce_red (approxFix_cd_ne _))

theorem approxResult_den_le (x : FloatVal) (N : ℤ) (hN : 1 ≤ N)
    (hq : ∀ j : ℕ, 1 ≤ j → 1 ≤ x.quots j) :
    (approxResult x N).den ≤ N := by
  have hinv : DenInv N (approxLoop x N 256 0 ⟨0, 1, 1, 0⟩) :=
    approxLoop_inv_zero x N hN hq 255
  obtain ⟨h1, h2, h3, h4⟩ := hinv
  unfold approxResult
  rw [approxFix_eq (by omega)]
  have hred : Red (reduce ⟨(approxLoop x N 256 0 ⟨0, 1, 1, 0⟩).cn,
      (approxLoop x N 256 0 ⟨0, 1, 1, 0⟩).cd⟩) := reduce_red (by omega)
  calc (approxSign x (reduce ⟨(approxLoop x N 256 0 ⟨0, 1, 1, 0⟩).cn,
          (approxLoop x N 256 0 ⟨0, 1, 1, 0⟩).cd⟩)).den
      ≤ (reduce ⟨(approxLoop x N 256 0 ⟨0, 1, 1, 0⟩).cn,
          (approxLoop x N 256 0 ⟨0, 1, 1, 0⟩).cd⟩).den := approxSign_den_le hred
    _ ≤ (approxLoop x N 256 0 ⟨0, 1, 1, 0⟩).cd := reduce_den_le (by omega)
    _ ≤ N := h2

/-- Claim C2: for every finite x and every N > 0, approximate returns
normally (given no overflow; the model is total, mirroring the hard 256
iteration cap) and the denominator of the returned value is at least 1 and
at most N. The hypothesis on quots records the floating-point fact that
floor(cf_value) is at least 1 from the second loop iteration on, since
there cf_value = 1/remainder with 0 < remainder <= 1. -/
theorem approximate_den_bounds (x : FloatVal) (N : ℤ) (hN : 1 ≤ N)
    (hfin : x.finite = true)
    (hq : ∀ j : ℕ, 1 ≤ j → 1 ≤ x.quots j) :
    ∃ r : SB, approximate x N = .ok r ∧ 1 ≤ r.den ∧ r.den ≤ N := by
  unfold approximate
  rw [if_neg (by omega), if_neg (by simp [hfin])]
  by_cases hz : x.isZero = true
  · rw [if_pos hz]
    refine ⟨reduce ⟨0, 1⟩, rfl, by decide, ?_⟩
    have h : (reduce ⟨0, 1⟩).den = 1 := by decide
    omega
  · rw [if_neg hz]
    refine ⟨approxResult x N, rfl, ?_, approxResult_den_le x N hN hq⟩
    have := (approxResult_red x N).2
    omega

/-- Witness for approximate_den_bounds at a concrete oracle and bound. -/
theorem approximate_den_bounds_witness :
    ∃ r : SB, approximate xFin 3 = .ok r ∧ 1 ≤ r.den ∧ r.den ≤ 3 :=
  approximate_den_bounds xFin 3 (by decide) rfl (fun j _ => le_refl 1)

/-- Claim C3: every stern_brocot value produced by a public operation (the
two-argument constructor, add, sub, mul, div, mediant, approximate) has
coprime numerator and denominator and a positive denominator; consequently
the zero value is exactly 0/1. -/
theorem ops_reduced :
    (∀ (n d : ℤ) (r : SB), mk n d = some r → Red r) ∧
    (∀ a b r : SB, add a b = some r → Red r) ∧
    (∀ a b r : SB, sub a b = some r → Red r) ∧
    (∀ a b r : SB, mul a b = some r → Red r) ∧
    (∀ a b r : SB, div a b = some r → Red r) ∧
    (∀ a b r : SB, mediant a b = some r → Red r) ∧
    (∀ (x : FloatVal) (N : ℤ) (r : SB), approximate x N = .ok r → Red r) ∧
    (∀ r : SB, Red r → r.num = 0 → r.den = 1) := by
  refine ⟨fun n d r h => mk_red h, fun a b r h => mk_red h,
    fun a b r h => mk_red h, fun a b r h => mk_red h, ?_,
    fun a b r h => mk_red h, ?_, ?_⟩
  · intro a b r h
    unfold div at h
    by_cases hb : b.num = 0
    · rw [if_pos hb] at h; exact absurd h (by simp)
    · rw [if_neg hb] at h; exact mk_red h
  · intro x N r h
    unfold approximate at h
    by_cases h1 : N ≤ 0
    · rw [if_pos h1] at h; exact absurd h (by simp)
    rw [if_neg h1] at h
    by_cases h2 : x.finite = false
    · rw [if_pos h2] at h; exact absurd h (by simp)
    rw [if_neg h2] at h
    by_cases h3 : x.isZero = true
    · rw [if_pos h3] at h
      rw [← Except.ok.inj h]; decide
    · rw [if_neg h3] at h
      rw [← Except.ok.inj h]; exact approxResult_red x N
  · intro r hr h0
    obtain ⟨hg, hd⟩ := hr
    rw [h0] at hg
    simp only [Int.gcd_zero_left] at hg
    omega

/-- Witness for ops_reduced: one concrete instantiation for each operation. -/
theorem ops_reduced_witness :
    Red ⟨2, 1⟩ ∧ Red ⟨5, 6⟩ ∧ Red ⟨-1, 6⟩ ∧ Red ⟨1, 6⟩ ∧ Red ⟨2, 3⟩ ∧
      Red ⟨2, 5⟩ ∧ Red ⟨5, 3⟩ ∧ (⟨0, 1⟩ : SB).den = 1 :=
  ⟨ops_reduced.1 4 2 ⟨2, 1⟩ (by decide),
   ops_reduced.2.1 ⟨1, 2⟩ ⟨1, 3⟩ ⟨5, 6⟩ (by decide),
   ops_reduced.2.2.1 ⟨1, 3⟩ ⟨1, 2⟩ ⟨-1, 6⟩ (by decide),
   ops_reduced.2.2.2.1 ⟨1, 2⟩ ⟨1, 3⟩ ⟨1, 6⟩ (by decide),
   ops_reduced.2.2.2.2.1 ⟨1, 2⟩ ⟨3, 4⟩ ⟨2, 3⟩ (by decide),
   ops_reduced.2.2.2.2.2.1 ⟨1, 2⟩ ⟨1, 3⟩ ⟨2, 5⟩ (by decide),
   ops_reduced.2.2.2.2.2.2.1 xFin 3 ⟨5, 3⟩ (by decide),
   ops_reduced.2.2.2.2.2.2.2 ⟨0, 1⟩ (by decide) rfl⟩

/-- Claim C7: the two-argument constructor fails exactly when d == 0, and
otherwise returns the reduced sign-normalized fraction; division fails
exactly when the divisor numerator is zero (for any genuine stern_brocot
value a, whose denominator is never zero). -/
theorem divide_by_zero_iff :
    (∀ n d : ℤ, mk n d = none ↔ d = 0) ∧
    (∀ n d : ℤ, d ≠ 0 → mk n d = some (reduce ⟨n, d⟩) ∧ Red (reduce ⟨n, d⟩)) ∧
    (∀ a b : SB, a.den ≠ 0 → (div a b = none ↔ b.num = 0)) := by
  refine ⟨?_, ?_, ?_⟩
  · intro n d
    unfold mk
    by_cases hd : d = 0
    · simp [hd]
    · simp [hd]
  · intro n d hd
    refine ⟨?_, reduce_red hd⟩
    unfold mk
    rw [if_neg hd]
  · intro a b ha
    unfold div
    by_cases hb : b.num = 0
    · simp [hb]
    · rw [if_neg hb]
      unfold mk
      rw [if_neg (mul_ne_zero ha hb)]
      simp [hb]

/-- Witness for divide_by_zero_iff at concrete arguments. -/
theorem divide_by_zero_iff_witness :
    (mk 1 0 = none ↔ (0 : ℤ) = 0) ∧
      (div ⟨1, 2⟩ ⟨0, 1⟩ = none ↔ (⟨0, 1⟩ : SB).num = 0) ∧
      mk 3 6 = some (reduce ⟨3, 6⟩) :=
  ⟨divide_by_zero_iff.1 1 0,
   divide_by_zero_iff.2.2 ⟨1, 2⟩ ⟨0, 1⟩ (by decide),
   (divide_by_zero_iff.2.1 3 6 (by decide)).1⟩

/-- Claim C10: on reduced values with positive denominators (and with the
products representable, which is vacuous in the unbounded model), the
cross-multiplication test of operator== agrees with structural equality of
the representations. -/
theorem eq_iff_same_repr (a b : SB) (ha : Red a) (hb : Red b) :
    sbEq a b = true ↔ a = b := by
  unfold sbEq
  rw [beq_iff_eq]
  constructor
  · intro h
    obtain ⟨hga, hda⟩ := ha
    obtain ⟨hgb, hdb⟩ := hb
    have hca : IsCoprime a.num a.den := Int.isCoprime_iff_gcd_eq_one.mpr hga
    have hcb : IsCoprime b.num b.den := Int.isCoprime_iff_gcd_eq_one.mpr hgb
    have h1 : a.den ∣ b.den := by
      refine hca.symm.dvd_of_dvd_mul_left ⟨b.num, ?_⟩
      rw [h]; ring
    have h2 : b.den ∣ a.den := by
      refine hcb.symm.dvd_of_dvd_mul_left ⟨a.num, ?_⟩
      rw [← h]; ring
    have hden : a.den = b.den := Int.dvd_antisymm (by omega) (by omega) h1 h2
    have hnum : a.num = b.num := by
      have hne : b.den ≠ 0 := by omega
      apply mul_right_cancel₀ hne
      rw [h, hden]
    obtain ⟨an, ad⟩ := a
    obtain ⟨bn, bd⟩ := b
    simp only at hden hnum
    rw [hden, hnum]
  · intro h
    rw [h]

/-- Witness for eq_iff_same_repr. -/
theorem eq_iff_same_repr_witness :
    sbEq ⟨1, 2⟩ ⟨1, 2⟩ = true ↔ (⟨1, 2⟩ : SB) = ⟨1, 2⟩ :=
  eq_iff_same_repr ⟨1, 2⟩ ⟨1, 2⟩ (by decide) (by decide)

/-- Counterexample for claim C8 as stated: for a non-finite x and N = 0 the
failure raised is InvalidBound, not NonFiniteInput, because the bound check
runs first; so failing with NonFiniteInput is not equivalent to x being
non-finite. -/
theorem approximate_error_priority_cex :
    xNaN.finite = false ∧
      approximate xNaN 0 = .error .invalidBound ∧
      approximate xNaN 0 ≠ .error .nonFiniteInput :=
  ⟨rfl, by decide, by decide⟩

/-- Claim C8 (amended): approximate fails with InvalidBound exactly when
N ≤ 0; it fails with NonFiniteInput exactly when N > 0 and x is non-finite
(the bound check precedes the finiteness check); for finite x and N > 0
neither failure occurs. -/
theorem approximate_error_iff (x : FloatVal) (N : ℤ) :
    (approximate x N = .error .invalidBound ↔ N ≤ 0) ∧
    (approximate x N = .error .nonFiniteInput ↔ 0 < N ∧ x.finite = false) ∧
    (0 < N → x.finite = true → ∃ r, approximate x N = .ok r) := by
  unfold approximate
  by_cases h1 : N ≤ 0
  · rw [if_pos h1]
    refine ⟨by simp [h1], ?_, fun hN _ => absurd h1 (by omega)⟩
    constructor
    · intro h
      exact absurd (Except.error.inj h) (by decide)
    · intro h
      omega
  · rw [if_neg h1]
    by_cases h2 : x.finite = false
    · rw [if_pos h2]
      refine ⟨?_, by simp [h1, h2]; omega, ?_⟩
      · constructor
        · intro h
          exact absurd (Except.error.inj h) (by decide)
        · intro h
          omega
      · intro _ hfin
        rw [hfin] at h2
        cases h2
    · rw [if_neg h2]
      by_cases h3 : x.isZero = true
      · rw [if_pos h3]
        exact ⟨by simp [h1], by simp [h2], fun _ _ => ⟨_, rfl⟩⟩
      · rw [if_neg h3]
        exact ⟨by simp [h1], by simp [h2], fun _ _ => ⟨_, rfl⟩⟩

/-- Witness for approximate_error_iff: a finite input with a positive bound
succeeds. -/
theorem approximate_error_iff_witness :
    ∃ r, approximate xFin 7 = .ok r :=
  (approximate_error_iff xFin 7).2.2 (by omega) rfl

/-- Model of two's-complement wrap-around at width w, applied to the raw T
products that operator== computes. The source performs no overflow check of
any kind; on overflow the C++ signed multiplication is undefined behaviour,
realized as wrap-around on two's-complement targets, and in no case is an
Overflow failure surfaced. -/
def wrap (w : ℕ) (z : ℤ) : ℤ :=
  (z + 2 ^ (w - 1)) % 2 ^ w - 2 ^ (w - 1)

/-- Model of operator== as executed with a w-bit signed T. -/
def sbEqWrapped (w : ℕ) (a b : SB) : Bool :=
  wrap w (a.num * b.den) == wrap w (b.num * a.den)

/-- Claim C5 fails on the code: comparing the reduced values 2^62/1 and
-2^62/3 with T = int64_t makes both cross products overflow; both wrap to
-2^62, so operator== silently answers true for two unequal rationals and no
Overflow failure is raised (the operator returns a plain bool and the source
contains no overflow check at all). -/
theorem overflow_unchecked_eq :
    Red ⟨2 ^ 62, 1⟩ ∧ Red ⟨-(2 ^ 62), 3⟩ ∧
      (2 ^ 62 : ℤ) * 3 ≠ (-(2 ^ 62)) * 1 ∧
      sbEqWrapped 64 ⟨2 ^ 62, 1⟩ ⟨-(2 ^ 62), 3⟩ = true :=
  ⟨by decide, by decide, by decide, by decide⟩

/-!
The continued fraction expansion. The C++ loop
  while (d != 0) { q = n / d; push q; (n, d) = (d, n - q * d); }
uses the C++ truncating integer division, modelled by Int.tdiv. The loop is
embedded with explicit fuel; |d| strictly decreases, so |d| + 1 units of
fuel reach the fixed point (toCFAux_congr and toCF_rec below make this
exact).
-/

/-- Fuel-driven unfolding of the loop of to_continued_fraction(). -/
def toCFAux : ℕ → ℤ → ℤ → List ℤ
  | 0, _, _ => []
  | fuel + 1, n, d =>
    if d = 0 then [] else
      Int.tdiv n d :: toCFAux fuel d (n - Int.tdiv n d * d)

/-- Model of the loop of to_continued_fraction() on a numerator/denominator
pair, with enough fuel to reach termination. -/
def toCF (n d : ℤ) : List ℤ := toCFAux (d.natAbs + 1) n d

/-- Model of to_continued_fraction(). -/
def to_continued_fraction (r : SB) : List ℤ := toCF r.num r.den

/-- The variant with flooring division, written from the words of the claim
(a_i = floor(n/d)); compared against the truncating source. -/
def toCFAuxFloor : ℕ → ℤ → ℤ → List ℤ
  | 0, _, _ => []
  | fuel + 1, n, d =>
    if d = 0 then [] else
      Int.fdiv n d :: toCFAuxFloor fuel d (n - Int.fdiv n d * d)

/-- The floor-division expansion named by the claim. -/
def toCFFloor (n d : ℤ) : List ℤ := toCFAuxFloor (d.natAbs + 1) n d

/-- The value of a finite continued fraction [a0; a1, ...]; the inverse of
the empty tail is 0⁻¹ = 0 in ℚ, so a singleton evaluates to its head. -/
def evalCF : List ℤ → ℚ
  | [] => 0
  | a :: l => (a : ℚ) + (evalCF l)⁻¹

theorem toCFAux_succ (fuel : ℕ) (n d : ℤ) :
    toCFAux (fuel + 1) n d =
      if d = 0 then [] else
        Int.tdiv n d :: toCFAux fuel d (n - Int.tdiv n d * d) := rfl

theorem sub_tdiv_mul (n d : ℤ) : n - Int.tdiv n d * d = Int.tmod n d := by
  rw [Int.tmod_def]; ring

theorem natAbs_tmod_eq (a b : ℤ) : (a.tmod b).natAbs = a.natAbs % b.natAbs := by
  cases a with
  | ofNat m =>
    cases b with
    | ofNat n => rfl
    | negSucc n => rfl
  | negSucc m =>
    cases b with
    | ofNat n =>
      show (-(Int.ofNat (Nat.succ m % n))).natAbs = _
      rw [Int.natAbs_neg]
      rfl
    | negSucc n =>
      show (-(Int.ofNat (Nat.succ m % Nat.succ n))).natAbs = _
      rw [Int.natAbs_neg]
      rfl

theorem toCFAux_congr : ∀ (fuel₁ : ℕ) {fuel₂ : ℕ} {n d : ℤ},
    d.natAbs < fuel₁ → d.natAbs < fuel₂ → toCFAux fuel₁ n d = toCFAux fuel₂ n d := by
  intro fuel₁
  induction fuel₁ with
  | zero => intro f₂ n d h _; omega
  | succ fuel ih =>
    intro f₂ n d h1 h2
    cases f₂ with
    | zero => omega
    | succ f₂ =>
      rw [toCFAux_succ, toCFAux_succ]
      by_cases hd : d = 0
      · rw [if_pos hd, if_pos hd]
      · rw [if_neg hd, if_neg hd]
        have hmod : (n - Int.tdiv n d * d).natAbs < d.natAbs := by
          rw [sub_tdiv_mul, natAbs_tmod_eq]
          have hd0 : d.natAbs ≠ 0 := Int.natAbs_ne_zero.mpr hd
          exact Nat.mod_lt _ (by omega)
        congr 1
        exact ih (by omega) (by omega)

theorem toCF_rec {n d : ℤ} (hd : d ≠ 0) :
    toCF n d = Int.tdiv n d :: toCF d (n - Int.tdiv n d * d) := by
  unfold toCF
  rw [toCFAux_succ, if_neg hd]
  have hmod : (n - Int.tdiv n d * d).natAbs < d.natAbs := by
    rw [sub_tdiv_mul, natAbs_tmod_eq]
    have hd0 : d.natAbs ≠ 0 := Int.natAbs_ne_zero.mpr hd
    exact Nat.mod_lt _ (by omega)
  congr 1
  exact toCFAux_congr _ (by omega) (by omega)

theorem evalCF_toCF : ∀ (fuel : ℕ) (n d : ℤ), d.natAbs ≤ fuel → d ≠ 0 →
    evalCF (toCF n d) = (n : ℚ) / (d : ℚ) := by
  intro fuel
  induction fuel with
  | zero =>
    intro n d h hd
    exact absurd (Int.natAbs_eq_zero.mp (Nat.le_zero.mp h)) hd
  | succ fuel ih =>
    intro n d hle hd
    rw [toCF_rec hd, sub_tdiv_mul]
    have hrec := Int.tdiv_add_tmod n d
    have hdQ : (d : ℚ) ≠ 0 := Int.cast_ne_zero.mpr hd
    have hcast : (n : ℚ) =
        (d : ℚ) * ((Int.tdiv n d : ℤ) : ℚ) + ((Int.tmod n d : ℤ) : ℚ) := by
      exact_mod_cast hrec.symm
    by_cases hm : Int.tmod n d = 0
    · rw [hm]
      show (Int.tdiv n d : ℚ) + (evalCF (toCF d 0))⁻¹ = (n : ℚ) / (d : ℚ)
      have hz : toCF d 0 = [] := rfl
      rw [hz]
      show (Int.tdiv n d : ℚ) + (0 : ℚ)⁻¹ = (n : ℚ) / (d : ℚ)
      rw [inv_zero, add_zero, hcast, hm]
      push_cast
      rw [add_zero, mul_div_cancel_left₀ _ hdQ]
    · have hmabs : (Int.tmod n d).natAbs ≤ fuel := by
        have := natAbs_tmod_eq n d
        have hd0 : d.natAbs ≠ 0 := Int.natAbs_ne_zero.mpr hd
        have := Nat.mod_lt n.natAbs (show 0 < d.natAbs by omega)
        omega
      have hIH := ih d (Int.tmod n d) hmabs hm
      show (Int.tdiv n d : ℚ) + (evalCF (toCF d (Int.tmod n d)))⁻¹ = (n : ℚ) / (d : ℚ)
      rw [hIH]
      have hmQ : ((Int.tmod n d : ℤ) : ℚ) ≠ 0 := Int.cast_ne_zero.mpr hm
      rw [inv_div, hcast]
      field_simp
      ring

/-- Counterexample for claim C9 as stated: the source divides with C++
truncation toward zero, not floor; at the value -1/2 the produced quotient
sequence is [0, -2], while the floor recurrence of the claim gives [-1, 2]. -/
theorem to_continued_fraction_trunc_cex :
    Red ⟨-1, 2⟩ ∧ to_continued_fraction ⟨-1, 2⟩ = [0, -2] ∧
      toCFFloor (-1) 2 = [-1, 2] ∧
      to_continued_fraction ⟨-1, 2⟩ ≠ toCFFloor (-1) 2 := by
  refine ⟨by decide, by decide, by decide, by decide⟩

/-- Claim C9 (amended): for every stern_brocot value, to_continued_fraction
terminates and returns the partial quotients of the truncating-division
Euclidean recurrence a_i = trunc(n/d), (n, d) ← (d, n − a_i·d), stopping
when d == 0 (trunc, not floor: C++ division truncates toward zero); the
resulting finite sequence reconstructs the value n/d exactly. -/
theorem to_continued_fraction_spec (r : SB) (hd : r.den ≠ 0) :
    to_continued_fraction r =
      Int.tdiv r.num r.den ::
        toCF r.den (r.num - Int.tdiv r.num r.den * r.den) ∧
    evalCF (to_continued_fraction r) = (r.num : ℚ) / (r.den : ℚ) :=
  ⟨toCF_rec hd, evalCF_toCF r.den.natAbs r.num r.den le_rfl hd⟩

/-- Witness for to_continued_fraction_spec at the value 7/3. -/
theorem to_continued_fraction_spec_witness :
    to_continued_fraction ⟨7, 3⟩ =
      Int.tdiv 7 3 :: toCF 3 (7 - Int.tdiv 7 3 * 3) ∧
    evalCF (to_continued_fraction ⟨7, 3⟩) = (7 : ℚ) / 3 :=
  to_continued_fraction_spec ⟨7, 3⟩ (by decide)

/-!
The Farey sequence generator. The spec (§4.3) specifies it, but no
FareySequenceGenerator appears among the source files of the repository, so
it is modelled from the spec: repeated mediant insertion between adjacent
pairs starting from [0/1, 1/1], inserting (a+c)/(b+d) between a/b and c/d
whenever b + d ≤ N and re-examining; rendered functionally as the in-order
list of the mediant subtree between two adjacent fractions. Fuel N suffices
because adjacent denominator sums start at 2 and grow by at least 1 per
insertion depth, and insertion stops once the sum exceeds N.
-/

/-- Modelled from the spec: the fractions strictly between a/b and c/d
produced by repeated mediant insertion under the denominator bound N, in
increasing order; fractions are numerator/denominator pairs of naturals. -/
def fareyAux (N : ℕ) : ℕ → ℕ → ℕ → ℕ → ℕ → List (ℕ × ℕ)
  | 0, _, _, _, _ => []
  | fuel + 1, a, b, c, d =>
    if b + d ≤ N then
      fareyAux N fuel a b (a + c) (b + d) ++
        (a + c, b + d) :: fareyAux N fuel (a + c) (b + d) c d
    else []

/-- Modelled from the spec: farey(N), the ordered sequence of all reduced
fractions in [0,1] with denominator at most N, built by mediant insertion
between the endpoints 0/1 and 1/1. -/
def farey (N : ℕ) : List (ℕ × ℕ) :=
  (0, 1) :: (fareyAux N N 0 1 1 1 ++ [(1, 1)])

/-- Adjacency invariant of the Farey construction: positive denominators and
the unimodular relation b*c = a*d + 1 between neighbours a/b and c/d. -/
def FareyAdj (x y : ℕ × ℕ) : Prop :=
  0 < x.2 ∧ 0 < y.2 ∧ x.2 * y.1 = x.1 * y.2 + 1

theorem chain_glue {α : Type} {R : α → α → Prop} :
    ∀ {l : List α} {x y : α} {l' : List α},
      List.Chain R x (l ++ [y]) → List.Chain R y l' →
      List.Chain R x (l ++ y :: l') := by
  intro l
  induction l with
  | nil =>
    intro x y l' h1 h2
    cases h1 with
    | cons hr _ => exact List.Chain.cons hr h2
  | cons z t ih =>
    intro x y l' h1 h2
    cases h1 with
    | cons hr htail => exact List.Chain.cons hr (ih htail h2)

theorem mediant_gcd {a b c d : ℕ} (h : b * c = a * d + 1) :
    Nat.gcd (a + c) (b + d) = 1 := by
  have h1 : b * (a + c) = a * (b + d) + 1 := by
    zify at h ⊢; linear_combination h
  have hg1 : Nat.gcd (a + c) (b + d) ∣ a + c := Nat.gcd_dvd_left _ _
  have hg2 : Nat.gcd (a + c) (b + d) ∣ b + d := Nat.gcd_dvd_right _ _
  have hd1 : Nat.gcd (a + c) (b + d) ∣ a * (b + d) + 1 :=
    h1 ▸ Dvd.dvd.mul_left hg1 b
  have hd2 : Nat.gcd (a + c) (b + d) ∣ a * (b + d) := Dvd.dvd.mul_left hg2 a
  have hone : Nat.gcd (a + c) (b + d) ∣ 1 := by
    have := Nat.dvd_sub' hd1 hd2
    simpa using this
  exact Nat.dvd_one.mp hone

theorem fareyAux_chain (N : ℕ) :
    ∀ (fuel a b c d : ℕ), 0 < b → 0 < d → b * c = a * d + 1 →
      List.Chain FareyAdj (a, b) (fareyAux N fuel a b c d ++ [(c, d)]) := by
  intro fuel
  induction fuel with
  | zero =>
    intro a b c d hb hd h
    simp only [fareyAux, List.nil_append]
    exact List.Chain.cons ⟨hb, hd, h⟩ List.Chain.nil
  | succ fuel ih =>
    intro a b c d hb hd h
    simp only [fareyAux]
    by_cases hbd : b + d ≤ N
    · rw [if_pos hbd]
      have hmg : b * (a + c) = a * (b + d) + 1 := by
        zify at h ⊢; linear_combination h
      have hmg2 : (b + d) * c = (a + c) * d + 1 := by
        zify at h ⊢; linear_combination h
      have ihl := ih a b (a + c) (b + d) hb (by omega) hmg
      have ihr := ih (a + c) (b + d) c d (by omega) hd hmg2
      rw [List.append_assoc, List.cons_append]
      exact chain_glue ihl ihr
    · rw [if_neg hbd]
      simp only [List.nil_append]
      exact List.Chain.cons ⟨hb, hd, h⟩ List.Chain.nil

theorem fareyAux_mem (N : ℕ) :
    ∀ (fuel a b c d : ℕ), 0 < b → 0 < d → b * c = a * d + 1 →
      a ≤ b → c ≤ d →
      ∀ p q : ℕ, (p, q) ∈ fareyAux N fuel a b c d →
        0 < q ∧ q ≤ N ∧ p ≤ q ∧ Nat.gcd p q = 1 := by
  intro fuel
  induction fuel with
  | zero =>
    intro a b c d _ _ _ _ _ p q hm
    simp [fareyAux] at hm
  | succ fuel ih =>
    intro a b c d hb hd h hab hcd p q hm
    simp only [fareyAux] at hm
    by_cases hbd : b + d ≤ N
    · rw [if_pos hbd] at hm
      have hmg : b * (a + c) = a * (b + d) + 1 := by
        zify at h ⊢; linear_combination h
      have hmg2 : (b + d) * c = (a + c) * d + 1 := by
        zify at h ⊢; linear_combination h
      rcases List.mem_append.mp hm with hml | hmr
      · exact ih a b (a + c) (b + d) hb (by omega) hmg hab (by omega) p q hml
      · rcases List.mem_cons.mp hmr with hme | hmr'
        · have hp : p = a + c := congrArg Prod.fst hme
          have hq : q = b + d := congrArg Prod.snd hme
          subst hp; subst hq
          exact ⟨by omega, hbd, by omega, mediant_gcd h⟩
        · exact ih (a + c) (b + d) c d (by omega) hd hmg2 (by omega) hcd p q hmr'
    · rw [if_neg hbd] at hm
      simp at hm

theorem between_den_le_int {a b c d p q : ℤ} (hb : 0 ≤ b) (hd : 0 ≤ d)
    (h : b * c = a * d + 1) (h1 : a * q < p * b) (h2 : p * d < q * c) :
    b + d ≤ q := by
  have e1 : 1 ≤ c * q - p * d := by linarith
  have e2 : 1 ≤ p * b - a * q := by linarith
  have hbc : b * c - a * d = 1 := by linarith
  have hq : q = b * (c * q - p * d) + d * (p * b - a * q) := by
    have key : q * (b * c - a * d) = b * (c * q - p * d) + d * (p * b - a * q) := by
      ring
    rw [hbc, mul_one] at key
    exact key
  calc b + d = b * 1 + d * 1 := by ring
    _ ≤ b * (c * q - p * d) + d * (p * b - a * q) :=
        add_le_add (mul_le_mul_of_nonneg_left e1 hb)
          (mul_le_mul_of_nonneg_left e2 hd)
    _ = q := hq.symm

theorem between_den_le {a b c d p q : ℕ} (h : b * c = a * d + 1)
    (h1 : a * q < p * b) (h2 : p * d < q * c) : b + d ≤ q := by
  zify at h h1 h2 ⊢
  exact between_den_le_int (by positivity) (by positivity) h h1 h2

theorem fareyAux_complete (N : ℕ) :
    ∀ (fuel a b c d : ℕ), 0 < b → 0 < d → b * c = a * d + 1 →
      N + 1 - (b + d) ≤ fuel →
      ∀ p q : ℕ, 0 < q → q ≤ N → Nat.gcd p q = 1 →
        a * q < p * b → p * d < q * c →
        (p, q) ∈ fareyAux N fuel a b c d := by
  intro fuel
  induction fuel with
  | zero =>
    intro a b c d hb hd h hfuel p q hq hqN hg h1 h2
    have := between_den_le h h1 h2
    omega
  | succ fuel ih =>
    intro a b c d hb hd h hfuel p q hq hqN hg h1 h2
    simp only [fareyAux]
    by_cases hbd : b + d ≤ N
    · rw [if_pos hbd]
      have hmg : b * (a + c) = a * (b + d) + 1 := by
        zify at h ⊢; linear_combination h
      have hmg2 : (b + d) * c = (a + c) * d + 1 := by
        zify at h ⊢; linear_combination h
      rcases lt_trichotomy (p * (b + d)) (q * (a + c)) with hlt | heq | hgt
      · have hmem := ih a b (a + c) (b + d) hb (by omega) hmg (by omega)
          p q hq hqN hg h1 hlt
        exact List.mem_append.mpr (Or.inl hmem)
      · have hgm : Nat.gcd (a + c) (b + d) = 1 := mediant_gcd h
        have hq1 : q ∣ b + d := by
          have hdvd : q ∣ p * (b + d) := heq ▸ dvd_mul_right q (a + c)
          exact (Nat.Coprime.symm hg).dvd_of_dvd_mul_left hdvd
        have hq2 : (b + d) ∣ q := by
          have hdvd : (b + d) ∣ q * (a + c) := heq ▸ dvd_mul_left (b + d) p
          exact (Nat.Coprime.symm hgm).dvd_of_dvd_mul_right hdvd
        have hqe : q = b + d := Nat.dvd_antisymm hq1 hq2
        have hpe : p = a + c := by
          have hmul : p * (b + d) = (a + c) * (b + d) := by
            rw [heq, hqe, mul_comm]
          exact Nat.eq_of_mul_eq_mul_right (by omega) hmul
        rw [hpe, hqe]
        exact List.mem_append.mpr (Or.inr (List.mem_cons_self _ _))
      · have hmem := ih (a + c) (b + d) c d (by omega) hd hmg2 (by omega)
          p q hq hqN hg (by rw [Nat.mul_comm (a + c) q]; exact hgt) h2
        exact List.mem_append.mpr (Or.inr (List.mem_cons_of_mem _ hmem))
    · rw [if_neg hbd]
      have := between_den_le h h1 h2
      omega

/-- Claim C4 (modelled from the spec, §4.3 — no Farey generator exists among
the source files): for N > 0, farey(N) is the strictly increasing, complete
sequence of all reduced fractions in [0,1] with denominator at most N, every
adjacent pair (a/b, c/d) satisfies bc − ad = 1, and farey(5) is the eleven
fraction sequence from the spec. -/
theorem farey_correct (N : ℕ) (hN : 0 < N) :
    List.Chain' (fun x y : ℕ × ℕ => (x.2 : ℤ) * y.1 - x.1 * y.2 = 1) (farey N) ∧
    List.Pairwise (· < ·) ((farey N).map fun p => (p.1 : ℚ) / (p.2 : ℚ)) ∧
    (∀ p q : ℕ, 0 < q → q ≤ N → p ≤ q → Nat.gcd p q = 1 → (p, q) ∈ farey N) ∧
    (∀ pr : ℕ × ℕ, pr ∈ farey N →
      pr.1 ≤ pr.2 ∧ 0 < pr.2 ∧ pr.2 ≤ N ∧ Nat.gcd pr.1 pr.2 = 1) ∧
    farey 5 = [(0, 1), (1, 5), (1, 4), (1, 3), (2, 5), (1, 2), (3, 5),
      (2, 3), (3, 4), (4, 5), (1, 1)] := by
  have hchain : List.Chain' FareyAdj (farey N) := by
    show List.Chain FareyAdj (0, 1) (fareyAux N N 0 1 1 1 ++ [(1, 1)])
    exact fareyAux_chain N N 0 1 1 1 one_pos one_pos (by norm_num)
  refine ⟨?_, ?_, ?_, ?_, by decide⟩
  · refine hchain.imp (fun x y hxy => ?_)
    obtain ⟨hx, hy, he⟩ := hxy
    zify at he
    linarith
  · have hlt : List.Chain' (fun x y : ℕ × ℕ =>
        (x.1 : ℚ) / (x.2 : ℚ) < (y.1 : ℚ) / (y.2 : ℚ)) (farey N) := by
      refine hchain.imp (fun x y hxy => ?_)
      obtain ⟨hx, hy, he⟩ := hxy
      rw [div_lt_div_iff₀ (by exact_mod_cast hx) (by exact_mod_cast hy)]
      have hlt' : x.1 * y.2 < x.2 * y.1 := by
        rw [he]; exact Nat.lt_succ_self _
      rw [mul_comm ((y.1 : ℚ)) ((x.2 : ℚ))]
      exact_mod_cast hlt'
    haveI : IsTrans ℚ (· < ·) := ⟨fun _ _ _ => lt_trans⟩
    exact List.chain'_iff_pairwise.mp ((List.chain'_map _).mpr hlt)
  · intro p q hq hqN hpq hg
    by_cases hp0 : p = 0
    · subst hp0
      have hq1 : q = 1 := by simpa using hg
      subst hq1
      exact List.mem_cons_self _ _
    · by_cases hpq' : p = q
      · subst hpq'
        have hp1 : p = 1 := by simpa using hg
        subst hp1
        exact List.mem_cons.mpr (Or.inr (List.mem_append.mpr
          (Or.inr (List.mem_singleton.mpr rfl))))
      · have hmem := fareyAux_complete N N 0 1 1 1 one_pos one_pos
          (by norm_num) (by omega) p q hq hqN hg
          (by simpa using Nat.pos_of_ne_zero hp0)
          (by simpa using (by omega : p < q))
        exact List.mem_cons.mpr (Or.inr (List.mem_append.mpr (Or.inl hmem)))
  · intro pr hpr
    obtain ⟨p, q⟩ := pr
    rcases List.mem_cons.mp hpr with h0 | hrest
    · have hp : p = 0 := congrArg Prod.fst h0
      have hq : q = 1 := congrArg Prod.snd h0
      subst hp; subst hq
      exact ⟨by omega, by omega, by omega, by simp⟩
    · rcases List.mem_append.mp hrest with hmid | hlast
      · obtain ⟨hq, hqN, hpq, hg⟩ := fareyAux_mem N N 0 1 1 1 one_pos one_pos
          (by norm_num) (by omega) (by omega) p q hmid
        exact ⟨hpq, hq, hqN, hg⟩
      · have hme := List.mem_singleton.mp hlast
        have hp : p = 1 := congrArg Prod.fst hme
        have hq : q = 1 := congrArg Prod.snd hme
        subst hp; subst hq
        exact ⟨le_refl 1, one_pos, hN, by simp⟩

/-- Witness for farey_correct: membership of 2/5 in farey(5) and the
concrete farey(5) sequence. -/
theorem farey_correct_witness :
    (2, 5) ∈ farey 5 ∧
      farey 5 = [(0, 1), (1, 5), (1, 4), (1, 3), (2, 5), (1, 2), (3, 5),
        (2, 3), (3, 4), (4, 5), (1, 1)] :=
  ⟨(farey_correct 5 (by decide)).2.2.1 2 5 (by decide) (by decide)
      (by decide) (by decide),
   (farey_correct 5 (by decide)).2.2.2.2⟩

end CBT
